import Mathlib

/-!
Verification development for the SimpleMatch pattern engine
(src/matcha/tokens.py, lexer.py, parser.py, matcher.py).

Python strings are modelled as `List Char`; Python `Optional` as `Option`;
raised `LexerError`s as `Except LexError`; the `TypeError` that the matcher
can hit at run time (membership test against `None`) as the `none` case of
an `Option` result.  `int` values that can go negative (a `max` bound) are
`Int`; values that stay non-negative are `Nat`.
-/

set_option maxHeartbeats 1000000
set_option maxRecDepth 4000

namespace Matcha

/-! Data model, embedded from src/matcha/tokens.py. -/

/-- CharType enumeration (tokens.py). -/
inductive CharType where
  | str
  | anum
  | hex
  | oct
  | dec
  | bin
  | x
  deriving DecidableEq

/-- The string constant string.ascii_lowercase. -/
def asciiLowercase : List Char := "abcdefghijklmnopqrstuvwxyz".toList

/-- The string constant string.ascii_uppercase. -/
def asciiUppercase : List Char := "ABCDEFGHIJKLMNOPQRSTUVWXYZ".toList

/-- string.ascii_letters: lowercase then uppercase, in this exact order. -/
def asciiLetters : List Char := asciiLowercase ++ asciiUppercase

/-- string.digits. -/
def digitsList : List Char := "0123456789".toList

/-- string.hexdigits. -/
def hexdigitsList : List Char := "0123456789abcdefABCDEF".toList

/-- DEFAULT_CHAR_SETS table (tokens.py); the dict has no entry for X,
and the lexer never looks X up, so X maps to none here. -/
def defaultCharSet : CharType → Option (List Char)
  | .str => some asciiLetters
  | .anum => some (asciiLetters ++ digitsList)
  | .hex => some hexdigitsList
  | .oct => some "01234567".toList
  | .dec => some digitsList
  | .bin => some "01".toList
  | .x => none

/-- LengthConstraint dataclass (tokens.py).  Field defaults in the source are
min_len=1, max_len=None, exact_len=None; constructors below always pass all
three fields explicitly.  max_len is Int because the lexer can produce -1
from the length field "<0". -/
structure LengthConstraint where
  min_len : Option Nat
  max_len : Option Int
  exact_len : Option Nat
  deriving DecidableEq

/-- LengthConstraint.matches (tokens.py). -/
def LengthConstraint.matches (lc : LengthConstraint) (length : Nat) : Bool :=
  match lc.exact_len with
  | some e => decide (length = e)
  | none =>
    match lc.min_len with
    | some m =>
      if length < m then false
      else
        match lc.max_len with
        | some mx => if (length : Int) > mx then false else true
        | none => true
    | none =>
      match lc.max_len with
      | some mx => if (length : Int) > mx then false else true
      | none => true

/-- LengthConstraint.get_min (tokens.py). -/
def LengthConstraint.get_min (lc : LengthConstraint) : Nat :=
  match lc.exact_len with
  | some e => e
  | none =>
    match lc.min_len with
    | some m => m
    | none => 1

/-- LengthConstraint.get_max (tokens.py); none means unbounded. -/
def LengthConstraint.get_max (lc : LengthConstraint) : Option Int :=
  match lc.exact_len with
  | some e => some (e : Int)
  | none => lc.max_len

/-- TokenType enumeration (tokens.py). -/
inductive TokenType where
  | literal
  | pattern
  deriving DecidableEq

/-- Token dataclass (tokens.py). -/
structure Token where
  token_type : TokenType
  value : List Char
  char_type : Option CharType
  char_set : Option (List Char)
  length : Option LengthConstraint
  negated : Bool
  literals : Option (List (List Char))
  deriving DecidableEq

/-- Token(token_type=LITERAL, value=char) with the remaining dataclass
defaults (None / False / None). -/
def Token.mkLiteral (c : Char) : Token :=
  ⟨TokenType.literal, [c], none, none, none, false, none⟩

/-! Lexer, embedded from src/matcha/lexer.py. -/

/-- The five LexerError messages of lexer.py, as an error-kind enumeration. -/
inductive LexErrorKind where
  | unterminatedEscape
  | unclosedBracket
  | badFormat
  | invalidType
  | badLengthConstraint
  deriving DecidableEq

/-- LexerError (lexer.py): an error kind together with the reported position. -/
structure LexError where
  kind : LexErrorKind
  position : Nat
  deriving DecidableEq

/-- Split a list at the first occurrence of ch: models str.find followed by
slicing before/after the found index.  none when ch does not occur. -/
def splitAtChar (ch : Char) : List Char → Option (List Char × List Char)
  | [] => none
  | c :: cs =>
    if c = ch then some ([], cs)
    else
      match splitAtChar ch cs with
      | none => none
      | some p => some (c :: p.1, p.2)

theorem splitAtChar_eq (ch : Char) :
    ∀ l a b, splitAtChar ch l = some (a, b) → l = a ++ ch :: b := by
  intro l
  induction l with
  | nil => intro a b h; simp [splitAtChar] at h
  | cons c cs ih =>
    intro a b h
    by_cases hc : c = ch
    · simp [splitAtChar, hc] at h
      simp [hc, ← h.1, ← h.2]
    · simp [splitAtChar, hc] at h
      match hs : splitAtChar ch cs with
      | none => rw [hs] at h; simp at h
      | some p =>
        rw [hs] at h
        simp at h
        have := ih p.1 p.2 (by rw [hs])
        rw [← h.1, ← h.2, this]
        simp

theorem splitAtChar_length {ch : Char} {l a b : List Char}
    (h : splitAtChar ch l = some (a, b)) : b.length < l.length := by
  have := splitAtChar_eq ch l a b h
  subst this
  simp
  omega

/-- Python str.split on a single separator character.  The empty string
splits into one empty field. -/
def splitOnChar (ch : Char) : List Char → List (List Char)
  | [] => [[]]
  | c :: cs =>
    let r := splitOnChar ch cs
    if c = ch then [] :: r
    else
      match r with
      | p :: ps => (c :: p) :: ps
      | [] => [[c]]

/-- Python str.strip default whitespace characters. -/
def pyIsSpace (c : Char) : Bool :=
  (c = ' ') || (c = '\t') || (c = '\n') || (c = '\r') || (c = '\x0b') || (c = '\x0c')

/-- Python str.strip: remove leading and trailing whitespace. -/
def stripList (l : List Char) : List Char :=
  ((l.dropWhile pyIsSpace).reverse.dropWhile pyIsSpace).reverse

/-- The backtick character (code point 96), written via its code point. -/
def backtick : Char := Char.ofNat 96

/-- Lexer._parse_char_type: strip, lowercase, then match one of the seven
CharType values; otherwise LexerError(InvalidType). -/
def parseCharType (typeStr : List Char) (pos : Nat) : Except LexError CharType :=
  let t := (stripList typeStr).map Char.toLower
  if t = "str".toList then .ok .str
  else if t = "anum".toList then .ok .anum
  else if t = "hex".toList then .ok .hex
  else if t = "oct".toList then .ok .oct
  else if t = "dec".toList then .ok .dec
  else if t = "bin".toList then .ok .bin
  else if t = "x".toList then .ok .x
  else .error ⟨.invalidType, pos⟩

/-- Loop body of Lexer._parse_literals: scan for backtick-delimited
substrings; an unterminated backtick takes the rest of the string. -/
def parseLiteralsLoop : List Char → List (List Char)
  | [] => []
  | c :: cs =>
    if c = backtick then
      match hs : splitAtChar backtick cs with
      | none => [cs]
      | some p => p.1 :: parseLiteralsLoop p.2
    else parseLiteralsLoop cs
termination_by l => l.length
decreasing_by
  · simp only [List.length_cons]
    have := splitAtChar_length hs
    omega
  · simp

/-- Lexer._parse_literals: returns None for an empty result list. -/
def parseLiterals (rangeStr : List Char) : Option (List (List Char)) :=
  match parseLiteralsLoop rangeStr with
  | [] => none
  | l => some l

/-- chr(code) for ascending code points ord a .. ord b (inclusive);
empty when ord b < ord a, like Python range. -/
def rangeChars (a b : Char) : List Char :=
  (List.range (b.toNat + 1 - a.toNat)).map (fun k => Char.ofNat (a.toNat + k))

/-- Character-set scan of Lexer._parse_range: pipes are separators, a
three-character window X-Y expands to a code-point range, anything else is
added individually.  Collects the added characters in scan order. -/
def scanCharSet : List Char → List Char
  | [] => []
  | c :: cs =>
    if c = '|' then scanCharSet cs
    else
      match cs with
      | d :: e :: cs2 =>
        if d = '-' then rangeChars c e ++ scanCharSet cs2
        else c :: scanCharSet (d :: e :: cs2)
      | [d] => c :: scanCharSet [d]
      | [] => [c]
termination_by l => l.length
decreasing_by
  · simp only [List.length_cons]; omega
  · simp only [List.length_cons]; omega
  · simp only [List.length_cons]; omega
  · simp only [List.length_cons, List.length_nil]; omega

/-- Insert a character into a strictly sorted list, skipping duplicates. -/
def insertChar (c : Char) : List Char → List Char
  | [] => [c]
  | d :: ds =>
    if c < d then c :: d :: ds
    else if c = d then d :: ds
    else d :: insertChar c ds

/-- sorted(set(l)) of Python: strictly sorted list of the distinct
characters of l. -/
def sortedSet (l : List Char) : List Char :=
  l.foldl (fun acc c => insertChar c acc) []

/-- Lexer._parse_range: resolves the range field into
(char_set, negated, literals). -/
def parseRange (rangeStr : List Char) (char_type : CharType) :
    Option (List Char) × Bool × Option (List (List Char)) :=
  let r := stripList rangeStr
  if char_type = CharType.x then (none, false, none)
  else if r = [] then (defaultCharSet char_type, false, none)
  else
    let negated := r.head? = some '!'
    let r2 := if r.head? = some '!' then r.tail else r
    if r2.contains backtick then (none, negated, parseLiterals r2)
    else (some (sortedSet (scanCharSet r2)), negated, none)

/-- Digits-to-number accumulation, as int() does on a digit string. -/
def digitsToNat (l : List Char) : Nat :=
  l.foldl (fun n c => n * 10 + (c.toNat - 48)) 0

/-- Lexer._extract_number: take the run of digits at the head; none when
there is no digit (the source raises BadLengthConstraint there). -/
def extractNumber (s : List Char) : Option (Nat × List Char) :=
  let ds := s.takeWhile Char.isDigit
  if ds = [] then none else some (digitsToNat ds, s.dropWhile Char.isDigit)

theorem dropWhile_length_le (q : Char → Bool) :
    ∀ l : List Char, (l.dropWhile q).length ≤ l.length := by
  intro l
  induction l with
  | nil => simp [List.dropWhile]
  | cons c cs ih =>
    by_cases hq : q c
    · simp only [List.dropWhile, hq]
      simp only [List.length_cons]
      omega
    · simp only [List.dropWhile, hq]
      simp

theorem extractNumber_length {s : List Char} {p : Nat × List Char}
    (h : extractNumber s = some p) : p.2.length ≤ s.length := by
  simp only [extractNumber] at h
  by_cases hd : s.takeWhile Char.isDigit = []
  · simp [hd] at h
  · simp only [hd, if_false, Option.some.injEq] at h
    calc p.2.length = (s.dropWhile Char.isDigit).length := by rw [← h]
      _ ≤ s.length := dropWhile_length_le _ _

/-- Operator scan of Lexer._parse_length: reads >=, <=, >, < each followed by
an integer, accumulating min and max; any other character is
LexerError(BadLengthConstraint). -/
def parseLengthLoop (pos : Nat) :
    List Char → Option Nat → Option Int → Except LexError (Option Nat × Option Int)
  | [], mn, mx => .ok (mn, mx)
  | '>' :: '=' :: cs, _, mx =>
    match hn : extractNumber cs with
    | none => .error ⟨.badLengthConstraint, pos⟩
    | some p => parseLengthLoop pos p.2 (some p.1) mx
  | '<' :: '=' :: cs, mn, _ =>
    match hn : extractNumber cs with
    | none => .error ⟨.badLengthConstraint, pos⟩
    | some p => parseLengthLoop pos p.2 mn (some (p.1 : Int))
  | '>' :: cs, _, mx =>
    match hn : extractNumber cs with
    | none => .error ⟨.badLengthConstraint, pos⟩
    | some p => parseLengthLoop pos p.2 (some (p.1 + 1)) mx
  | '<' :: cs, mn, _ =>
    match hn : extractNumber cs with
    | none => .error ⟨.badLengthConstraint, pos⟩
    | some p => parseLengthLoop pos p.2 mn (some ((p.1 : Int) - 1))
  | _ :: _, _, _ => .error ⟨.badLengthConstraint, pos⟩
termination_by l _ _ => l.length
decreasing_by
  · have := extractNumber_length hn
    simp only [List.length_cons] at *
    omega
  · have := extractNumber_length hn
    simp only [List.length_cons] at *
    omega
  · have := extractNumber_length hn
    simp only [List.length_cons] at *
    omega
  · have := extractNumber_length hn
    simp only [List.length_cons] at *
    omega

/-- Lexer._parse_length: empty means min 1 unbounded; all digits means exact;
otherwise the operator scan, with min defaulting to 1 when never set. -/
def parseLength (lengthStr : List Char) (pos : Nat) : Except LexError LengthConstraint :=
  let l := stripList lengthStr
  if l = [] then .ok ⟨some 1, none, none⟩
  else if l.all Char.isDigit then .ok ⟨some 1, none, some (digitsToNat l)⟩
  else
    match parseLengthLoop pos l none none with
    | .error e => .error e
    | .ok p =>
      .ok ⟨some (match p.1 with | some m => m | none => 1), p.2, none⟩

/-- Lexer._parse_pattern_token after the closing bracket has been found:
split the bracket content into exactly three colon-separated fields, then
resolve type, range, and length. -/
def parsePatternContent (content : List Char) (startPos : Nat) : Except LexError Token :=
  match splitOnChar ':' content with
  | [typeStr, rangeStr, lengthStr] =>
    match parseCharType typeStr startPos with
    | .error e => .error e
    | .ok ct =>
      let r := parseRange rangeStr ct
      match parseLength lengthStr startPos with
      | .error e => .error e
      | .ok lc =>
        .ok ⟨TokenType.pattern, '[' :: content ++ [']'], some ct, r.1, some lc, r.2.1, r.2.2⟩
  | _ => .error ⟨.badFormat, startPos⟩

/-- Lexer.tokenize main loop over the remaining pattern, carrying the
absolute position for error reporting.  The branch order mirrors the
source: bracket, then escape, then plain literal. -/
def tokenizeLoop : List Char → Nat → Except LexError (List Token)
  | [], _ => .ok []
  | '[' :: rest, pos =>
    match hs : splitAtChar ']' rest with
    | none => .error ⟨.unclosedBracket, pos⟩
    | some p =>
      match parsePatternContent p.1 pos with
      | .error e => .error e
      | .ok tok => (tokenizeLoop p.2 (pos + p.1.length + 2)).map (fun ts => tok :: ts)
  | '\\' :: [], pos => .error ⟨.unterminatedEscape, pos⟩
  | '\\' :: d :: rest2, pos =>
    (tokenizeLoop rest2 (pos + 2)).map (fun ts => Token.mkLiteral d :: ts)
  | c :: rest, pos =>
    (tokenizeLoop rest (pos + 1)).map (fun ts => Token.mkLiteral c :: ts)
termination_by l _ => l.length
decreasing_by
  · simp only [List.length_cons]
    have := splitAtChar_length hs
    omega
  · simp only [List.length_cons]; omega
  · simp only [List.length_cons]; omega

/-- Lexer.tokenize of a whole pattern. -/
def tokenize (pattern : List Char) : Except LexError (List Token) :=
  tokenizeLoop pattern 0

/-! Parser, embedded from src/matcha/parser.py. -/

/-- AST nodes (parser.py): LiteralNode keeps its one-character string value;
PatternNode carries the resolved set, min/max from the LengthConstraint,
the negation flag and the literal alternatives. -/
inductive ASTNode where
  | literalNode (value : List Char)
  | patternNode (char_set : Option (List Char)) (min_len : Nat) (max_len : Option Int)
      (negated : Bool) (literals : Option (List (List Char)))
  deriving DecidableEq

/-- LengthConstraint dataclass defaults (tokens.py): min 1, max None,
exact None. -/
def defaultLC : LengthConstraint := ⟨some 1, none, none⟩

/-- Parser._token_to_node: LITERAL keeps its value; PATTERN copies set,
negation and literals and resolves min/max through get_min/get_max.  Pattern
tokens built by the lexer always carry a LengthConstraint; the none fallback
mirrors the dataclass default and is never reached from tokenize output. -/
def tokenToNode (t : Token) : ASTNode :=
  match t.token_type with
  | .literal => .literalNode t.value
  | .pattern =>
    let lc := match t.length with | some l => l | none => defaultLC
    .patternNode t.char_set lc.get_min lc.get_max t.negated t.literals

/-- Parser.parse: tokenize, then map tokens one-to-one onto AST nodes;
LexerErrors propagate unchanged. -/
def parseAst (pattern : List Char) : Except LexError (List ASTNode) :=
  match tokenize pattern with
  | .error e => .error e
  | .ok ts => .ok (ts.map tokenToNode)

/-! Matcher, embedded from src/matcha/matcher.py.  A result of none models
the Python TypeError that a membership test against None raises; the source
contains no other run-time failure.  All advances move only forward in the
text, and recursion is on the remaining AST suffix. -/

/-- Python truthiness of node.literals: a non-empty list. -/
def litsTruthy : Option (List (List Char)) → Bool
  | some (_ :: _) => true
  | _ => false

/-- The expression set(node.char_set) if node.char_set else None of
_match_pattern: an empty set string is falsy and collapses to None. -/
def csOpt : Option (List Char) → Option (List Char)
  | none => none
  | some s => if s = [] then none else some s

/-- One character test of _match_pattern: wildcard always matches; negated
membership against a None set is the Python TypeError, modelled as none. -/
def charMatches (isW : Bool) (cs : Option (List Char)) (negated : Bool) (c : Char) :
    Option Bool :=
  if isW then some true
  else
    match cs with
    | none => none
    | some s => if negated then some (! s.contains c) else some (s.contains c)

/-- Greedy counting loop of _match_pattern: count consecutive matching
characters, stopping once the count reaches the declared max (if bounded).
The Nat argument is the count accumulated so far. -/
def greedyLoop (isW : Bool) (cs : Option (List Char)) (neg : Bool) (mx : Option Int) :
    List Char → Nat → Option Nat
  | [], n => some n
  | c :: rest, n =>
    match charMatches isW cs neg c with
    | none => none
    | some false => some n
    | some true =>
      match mx with
      | some m => if ((n + 1 : Nat) : Int) ≥ m then some (n + 1) else
          greedyLoop isW cs neg mx rest (n + 1)
      | none => greedyLoop isW cs neg mx rest (n + 1)

/-- Python range(hi, lo - 1, -1) over naturals: hi, hi-1, ..., lo;
empty when hi < lo. -/
def descRange (hi lo : Nat) : List Nat :=
  (List.range (hi + 1 - lo)).map (fun k => hi - k)

/-- Candidate-length descent of _match_pattern: for each try length (already
materialised as a list), skip it when below min or above max, otherwise run
the continuation at pos + length and return its success; first success wins. -/
def tryList (cont : Nat → Option (Bool × Nat)) (pos mn : Nat) (mx : Option Int) :
    List Nat → Option (Bool × Nat)
  | [] => some (false, pos)
  | t :: ts =>
    if t < mn then tryList cont pos mn mx ts
    else if (match mx with | some m => decide ((t : Int) > m) | none => false) then
      tryList cont pos mn mx ts
    else
      match cont (pos + t) with
      | none => none
      | some (true, e) => some (true, e)
      | some (false, _) => tryList cont pos mn mx ts

/-- Matcher._match_pattern for a node without literal alternatives: greedy
count, then the descent from the count down to min, then the
min-zero-and-count-zero fallback, else failure at pos. -/
def matchPatternNode (cont : Nat → Option (Bool × Nat)) (text : List Char) (pos : Nat)
    (cs : Option (List Char)) (mn : Nat) (mx : Option Int) (neg : Bool) :
    Option (Bool × Nat) :=
  let isW := cs.isNone
  match greedyLoop isW (csOpt cs) neg mx (text.drop pos) 0 with
  | none => none
  | some matchLen =>
    match tryList cont pos mn mx (descRange matchLen mn) with
    | none => none
    | some (true, e) => some (true, e)
    | some (false, _) =>
      if mn = 0 && matchLen = 0 then
        match cont pos with
        | none => none
        | some (true, e) => some (true, e)
        | some (false, _) => some (false, pos)
      else some (false, pos)

/-- Python str.startswith on list-modelled strings. -/
def startsWithL (s p : List Char) : Bool :=
  decide (s.take p.length = p)

/-- Matcher._match_literals: try the alternatives in declared order; an
alternative that matches at pos runs the continuation past it, and the first
alternative whose continuation succeeds wins. -/
def matchLits (cont : Nat → Option (Bool × Nat)) (text : List Char) (pos : Nat) :
    List (List Char) → Option (Bool × Nat)
  | [] => some (false, pos)
  | lit :: more =>
    if startsWithL (text.drop pos) lit then
      match cont (pos + lit.length) with
      | none => none
      | some (true, e) => some (true, e)
      | some (false, _) => matchLits cont text pos more
    else matchLits cont text pos more

/-- Matcher._match_at: recursive backtracking over (remaining AST, position).
Exhausted AST succeeds at the current position; a literal node consumes one
equal character; a pattern node dispatches on truthiness of its literals. -/
def matchAt (text : List Char) : List ASTNode → Nat → Option (Bool × Nat)
  | [], pos => some (true, pos)
  | .literalNode v :: rest, pos =>
    if h : pos < text.length then
      if [text.get ⟨pos, h⟩] = v then matchAt text rest (pos + 1)
      else some (false, pos)
    else some (false, pos)
  | .patternNode cs mn mx neg lits :: rest, pos =>
    if litsTruthy lits then
      matchLits (fun p => matchAt text rest p) text pos
        (match lits with | some l => l | none => [])
    else matchPatternNode (fun p => matchAt text rest p) text pos cs mn mx neg

/-- Matcher.match_full: success of _match_at from position 0 with the whole
text consumed. -/
def matchFull (ast : List ASTNode) (text : List Char) : Option Bool :=
  match matchAt text ast 0 with
  | none => none
  | some (success, endPos) => some (success && decide (endPos = text.length))

/-- Matcher.find_first loop body: iterate the candidate start offsets in
order; the first success wins, a raised TypeError propagates, and an
exhausted list is not-found (inner none). -/
def findFirstScan (ast : List ASTNode) (text : List Char) :
    List Nat → Option (Option (Nat × Nat))
  | [] => some none
  | s :: ss =>
    match matchAt text ast s with
    | none => none
    | some (true, e) => some (some (s, e))
    | some (false, _) => findFirstScan ast text ss

/-- Matcher.find_first: for start in range(len(text)). -/
def findFirst (ast : List ASTNode) (text : List Char) : Option (Option (Nat × Nat)) :=
  findFirstScan ast text (List.range text.length)

/-- Outcome of running the find_all cursor loop with bounded fuel. -/
inductive LoopOut where
  | done (spans : List (Nat × Nat))
  | raised
  | running
  deriving DecidableEq

/-- Matcher.find_all loop: while pos < len(text), try a match anchored at
pos; on success record the span and jump to its end, on failure advance by
one.  The source loop has no fuel; running reports that the given fuel ran
out with the loop still going. -/
def findAllLoop (ast : List ASTNode) (text : List Char) : Nat → Nat → LoopOut
  | fuel, pos =>
    if pos < text.length then
      match fuel with
      | 0 => .running
      | f + 1 =>
        match matchAt text ast pos with
        | none => .raised
        | some (true, e) =>
          match findAllLoop ast text f e with
          | .done spans => .done ((pos, e) :: spans)
          | r => r
        | some (false, _) => findAllLoop ast text f (pos + 1)
    else .done []

/-- Termination of find_all on a given AST and text: some fuel suffices for
the cursor loop to leave its while condition (normally or by raising). -/
def FindAllTerminates (ast : List ASTNode) (text : List Char) : Prop :=
  ∃ fuel, findAllLoop ast text fuel 0 ≠ LoopOut.running

/-- Python text[a:b] slicing. -/
def extractSub (text : List Char) (a b : Nat) : List Char :=
  (text.take b).drop a

/-- Top-level match(pattern, text) of matcher.py. -/
def matchTop (pattern text : List Char) : Except LexError (Option Bool) :=
  match parseAst pattern with
  | .error e => .error e
  | .ok ast => .ok (matchFull ast text)

/-- Top-level find(pattern, text) of matcher.py, reported as an optional
span whose substring is text[start:end]. -/
def findTop (pattern text : List Char) : Except LexError (Option (Option (List Char))) :=
  match parseAst pattern with
  | .error e => .error e
  | .ok ast =>
    .ok ((findFirst ast text).map (fun r => r.map (fun se => extractSub text se.1 se.2)))

/-! Helper lemmas about the lexer. -/

theorem parseLength_min_isSome {l : List Char} {pos : Nat} {lc : LengthConstraint}
    (h : parseLength l pos = .ok lc) : lc.min_len.isSome := by
  simp only [parseLength] at h
  split at h
  · simp only [Except.ok.injEq] at h
    rw [← h]
    rfl
  · split at h
    · simp only [Except.ok.injEq] at h
      rw [← h]
      rfl
    · split at h
      · simp at h
      · simp only [Except.ok.injEq] at h
        rw [← h]
        rfl

theorem parsePatternContent_length {content : List Char} {pos : Nat} {tok : Token}
    (h : parsePatternContent content pos = .ok tok) :
    ∃ lc lstr, tok.length = some lc ∧ parseLength lstr pos = .ok lc := by
  unfold parsePatternContent at h
  split at h
  · rename_i typeStr rangeStr lengthStr hsp
    split at h
    · simp at h
    · split at h
      · simp at h
      · rename_i lc hlc
        simp only [Except.ok.injEq] at h
        exact ⟨lc, lengthStr, by rw [← h], hlc⟩
  · simp at h

theorem tokenizeLoop_token_source :
    ∀ l pos ts, tokenizeLoop l pos = .ok ts → ∀ t ∈ ts,
      (∃ c, t = Token.mkLiteral c) ∨ (∃ content p, parsePatternContent content p = .ok t) := by
  intro l pos
  induction l, pos using tokenizeLoop.induct with
  | case1 pos =>
    intro ts h t ht
    simp [tokenizeLoop] at h
    rw [h] at ht
    simp at ht
  | case2 rest pos hsplit =>
    intro ts h t ht
    simp only [tokenizeLoop] at h
    split at h
    · simp at h
    · rename_i p' heq
      rw [hsplit] at heq
      exact Option.noConfusion heq
  | case3 rest pos p hsplit e herr =>
    intro ts h t ht
    simp only [tokenizeLoop] at h
    split at h
    · simp at h
    · rename_i p' heq
      rw [hsplit] at heq
      injection heq with heq2
      subst heq2
      split at h
      · simp at h
      · rename_i tok' heq3
        rw [herr] at heq3
        exact Except.noConfusion heq3
  | case4 rest pos p hsplit tok hok ih =>
    intro ts h t ht
    simp only [tokenizeLoop] at h
    split at h
    · simp at h
    · rename_i p' heq
      rw [hsplit] at heq
      injection heq with heq2
      subst heq2
      split at h
      · rename_i e heq3
        rw [hok] at heq3
        exact Except.noConfusion heq3
      · rename_i tok' heq3
        rw [hok] at heq3
        injection heq3 with heq4
        subst heq4
        rcases hrec : tokenizeLoop p.2 (pos + p.1.length + 2) with e | ts2
        · rw [hrec] at h
          simp [Except.map] at h
        · rw [hrec] at h
          simp only [Except.map, Except.ok.injEq] at h
          rw [← h] at ht
          rcases List.mem_cons.mp ht with h1 | h2
          · right
            exact ⟨p.1, pos, by rw [← h1] at hok; exact hok⟩
          · exact ih ts2 hrec t h2
  | case5 pos =>
    intro ts h t ht
    simp [tokenizeLoop] at h
  | case6 d rest2 pos ih =>
    intro ts h t ht
    simp only [tokenizeLoop] at h
    rcases hrec : tokenizeLoop rest2 (pos + 2) with e | ts2
    · rw [hrec] at h
      simp [Except.map] at h
    · rw [hrec] at h
      simp only [Except.map, Except.ok.injEq] at h
      rw [← h] at ht
      rcases List.mem_cons.mp ht with h1 | h2
      · left
        exact ⟨d, h1⟩
      · exact ih ts2 hrec t h2
  | case7 c rest pos hne1 hne2 hne3 ih =>
    intro ts h t ht
    rw [tokenizeLoop] at h
    any_goals first | exact hne1 | exact hne2 | exact hne3
    rcases hrec : tokenizeLoop rest (pos + 1) with e | ts2
    · rw [hrec] at h
      simp [Except.map] at h
    · rw [hrec] at h
      simp only [Except.map, Except.ok.injEq] at h
      rw [← h] at ht
      rcases List.mem_cons.mp ht with h1 | h2
      · left
        exact ⟨c, h1⟩
      · exact ih ts2 hrec t h2

/-! Claim C9. -/

/-- C9: the empty pattern string compiles to an AST with zero nodes, and
full-match of the empty pattern against a text succeeds exactly when the
text is empty. -/
theorem c9_empty_pattern :
    parseAst [] = .ok [] ∧
      ∀ text : List Char, matchFull [] text = some (decide (text = [])) := by
  constructor
  · simp [parseAst, tokenize, tokenizeLoop]
  · intro text
    simp only [matchFull, matchAt, Bool.true_and, Option.some.injEq]
    apply decide_eq_decide.mpr
    constructor
    · intro h
      exact List.length_eq_zero.mp h.symm
    · intro h
      rw [h]
      rfl

/-! Claim C3.  The lexer performs no consistency check between min and max:
the length field >5<3 compiles without error to a constraint with min 6 and
max 2, refuting the unconditional invariant.  The invariant does hold for
every satisfiable compiled constraint. -/

theorem tokenize_dec53_eval :
    tokenize "[dec::>5<3]".toList =
      .ok [⟨TokenType.pattern, "[dec::>5<3]".toList, some CharType.dec, some digitsList,
        some ⟨some 6, some 2, none⟩, false, none⟩] := by
  simp [tokenize, tokenizeLoop, splitAtChar, parsePatternContent, splitOnChar,
    parseCharType, stripList, pyIsSpace, parseRange, defaultCharSet, parseLength,
    parseLengthLoop, extractNumber, digitsToNat, scanCharSet, sortedSet, insertChar,
    rangeChars, parseLiterals, parseLiteralsLoop, Token.mkLiteral, digitsList,
    List.dropWhile, List.takeWhile, Except.map]

/-- C3 counterexample: compiling the pattern [dec::>5<3] succeeds and
produces a LengthConstraint whose exposed min is 6 and exposed max is 2,
so min <= max fails although both bounds are present. -/
theorem c3_counterexample :
    (tokenize "[dec::>5<3]".toList).toOption.map
        (fun ts => ts.map (fun t => t.length.map (fun lc => (lc.get_min, lc.get_max)))) =
      some [some (6, some 2)] ∧ ¬((6 : Int) ≤ 2) := by
  constructor
  · rw [tokenize_dec53_eval]
    rfl
  · decide

/-- C3 amended: every LengthConstraint produced by compilation satisfies
min <= max (as exposed by get_min/get_max) whenever max is present and some
length satisfies the constraint; unsatisfiable constraints with min > max
can be produced (see the counterexample) and match no length. -/
theorem c3_amended (n : Nat) {p : List Char} {ts : List Token} {t : Token}
    {lc : LengthConstraint} {M : Int}
    (hts : tokenize p = .ok ts) (ht : t ∈ ts) (hlc : t.length = some lc)
    (hM : lc.get_max = some M) (hn : lc.matches n = true) :
    (lc.get_min : Int) ≤ M := by
  have hsrc := tokenizeLoop_token_source p 0 ts hts t ht
  rcases hsrc with ⟨c, hc⟩ | ⟨content, pos, hppc⟩
  · rw [hc] at hlc
    simp [Token.mkLiteral] at hlc
  · obtain ⟨lc2, lstr, hlen2, hpl⟩ := parsePatternContent_length hppc
    rw [hlen2] at hlc
    simp only [Option.some.injEq] at hlc
    subst hlc
    have hmin := parseLength_min_isSome hpl
    rcases he : lc2.exact_len with _ | e
    · rcases hm : lc2.min_len with _ | m
      · rw [hm] at hmin
        simp at hmin
      · simp only [LengthConstraint.get_max, he] at hM
        simp only [LengthConstraint.matches, he, hm, hM] at hn
        simp only [LengthConstraint.get_min, he, hm]
        split at hn
        · simp at hn
        · split at hn
          · simp at hn
          · rename_i h1 h2
            simp only [not_lt] at h1
            simp only [gt_iff_lt, not_lt] at h2
            have hcast : (m : Int) ≤ (n : Int) := by exact_mod_cast h1
            omega
    · simp only [LengthConstraint.get_max, he, Option.some.injEq] at hM
      simp only [LengthConstraint.matches, he, decide_eq_true_eq] at hn
      simp only [LengthConstraint.get_min, he]
      omega

/-- Token value that compiling [dec::>=2<=4] produces. -/
def tokDec24 : Token :=
  ⟨TokenType.pattern, "[dec::>=2<=4]".toList, some CharType.dec, some digitsList,
    some ⟨some 2, some 4, none⟩, false, none⟩

theorem tokenize_dec24_eval : tokenize "[dec::>=2<=4]".toList = .ok [tokDec24] := by
  simp [tokenize, tokenizeLoop, splitAtChar, parsePatternContent, splitOnChar,
    parseCharType, stripList, pyIsSpace, parseRange, defaultCharSet, parseLength,
    parseLengthLoop, extractNumber, digitsToNat, scanCharSet, sortedSet, insertChar,
    rangeChars, parseLiterals, parseLiteralsLoop, Token.mkLiteral, digitsList,
    List.dropWhile, List.takeWhile, Except.map, tokDec24]

/-- C3 witness: the amended statement at the concrete pattern
[dec::>=2<=4] with length 3. -/
theorem c3_amended_witness :
    tokenize "[dec::>=2<=4]".toList = .ok [tokDec24] ∧
      tokDec24.length = some ⟨some 2, some 4, none⟩ ∧
      (⟨some 2, some 4, none⟩ : LengthConstraint).get_max = some 4 ∧
      (⟨some 2, some 4, none⟩ : LengthConstraint).matches 3 = true ∧
      ((⟨some 2, some 4, none⟩ : LengthConstraint).get_min : Int) ≤ 4 := by
  refine ⟨tokenize_dec24_eval, rfl, rfl, by decide, ?_⟩
  exact c3_amended 3 tokenize_dec24_eval (List.mem_singleton.mpr rfl) rfl rfl (by decide)

/-! Claim C4.  The lexer raises exactly the five error kinds, but matching
CAN raise: a compiled pattern whose resolved character set is the empty
string (for example [str:!:], whose range field is a bare negation) makes
_match_pattern evaluate set(node.char_set) if node.char_set else None to
None, and the membership test char (not) in None then raises TypeError at
match time on any non-empty text.  The none result below is exactly that
raised TypeError. -/

/-- C4: evaluating the code at the failing input: the pattern [str:!:]
compiles without error, yet matching it against the text a raises
(matchFull returns the TypeError marker none), contradicting the claim that
matching never raises after successful compilation. -/
theorem c4_matching_raises :
    parseAst "[str:!:]".toList = .ok [ASTNode.patternNode (some []) 1 none true none] ∧
      matchFull [ASTNode.patternNode (some []) 1 none true none] "a".toList = none ∧
      matchTop "[str:!:]".toList "a".toList = .ok none := by
  have hast : parseAst "[str:!:]".toList = .ok [ASTNode.patternNode (some []) 1 none true none] := by
    simp [parseAst, tokenize, tokenizeLoop, splitAtChar, parsePatternContent, splitOnChar,
      parseCharType, stripList, pyIsSpace, parseRange, defaultCharSet, parseLength,
      parseLengthLoop, extractNumber, digitsToNat, scanCharSet, sortedSet, insertChar,
      rangeChars, parseLiterals, parseLiteralsLoop, Token.mkLiteral, tokenToNode,
      LengthConstraint.get_min, LengthConstraint.get_max, List.dropWhile, List.takeWhile,
      Except.map]
  refine ⟨hast, by decide, ?_⟩
  unfold matchTop
  rw [hast]
  rfl

/-! Claim C10.  The negation flag never influences literal-alternatives
matching: the lexer strips the ! before the backtick test, and
_match_literals ignores node.negated entirely. -/

/-- C10: for a bracket token whose range field contains a backtick, writing
a leading ! only flips the stored negation flag and changes neither the
parsed literal alternatives nor any matching outcome: the lexer output
differs only in the flag, and _match_at treats the two nodes identically at
every text and position. -/
theorem c10_negation_no_effect_on_literals {ct : CharType} {r : List Char}
    (hx : ct ≠ CharType.x)
    (hstrip1 : stripList ('!' :: r) = '!' :: r) (hstrip2 : stripList r = r)
    (hhead : r.head? ≠ some '!') (htick : r.contains backtick = true) :
    parseRange ('!' :: r) ct = (none, true, parseLiterals r) ∧
      parseRange r ct = (none, false, parseLiterals r) ∧
      ∀ (text : List Char) (pos : Nat) (cs : Option (List Char)) (mn : Nat)
        (mx : Option Int) (lits : Option (List (List Char))) (rest : List ASTNode),
        litsTruthy lits = true →
        matchAt text (.patternNode cs mn mx true lits :: rest) pos =
          matchAt text (.patternNode cs mn mx false lits :: rest) pos := by
  have hrne : r ≠ [] := by
    intro h
    rw [h] at htick
    simp [List.contains] at htick
  have hmem : backtick ∈ r := by
    simpa using htick
  refine ⟨?_, ?_, ?_⟩
  · unfold parseRange
    rw [hstrip1]
    simp only [if_neg hx]
    rw [if_neg (by simp)]
    simp [hmem]
  · unfold parseRange
    rw [hstrip2]
    simp only [if_neg hx]
    rw [if_neg hrne]
    have hh : (r.head? = some '!') = False := by
      simp [hhead]
    simp [hh, hmem]
  · intro text pos cs mn mx lits rest hl
    simp [matchAt, hl]

/-- C10 witness: the theorem applied at type str and range backtick a
backtick. -/
theorem c10_witness :
    parseRange ('!' :: "`a`".toList) CharType.str = (none, true, parseLiterals "`a`".toList) ∧
      parseRange "`a`".toList CharType.str = (none, false, parseLiterals "`a`".toList) ∧
      ∀ (text : List Char) (pos : Nat) (cs : Option (List Char)) (mn : Nat)
        (mx : Option Int) (lits : Option (List (List Char))) (rest : List ASTNode),
        litsTruthy lits = true →
        matchAt text (.patternNode cs mn mx true lits :: rest) pos =
          matchAt text (.patternNode cs mn mx false lits :: rest) pos :=
  c10_negation_no_effect_on_literals (by decide) (by decide) (by decide) (by decide) (by decide)

/-! Helper lemmas about the matcher. -/

theorem startsWithL_le {s p : List Char} (h : startsWithL s p = true) :
    p.length ≤ s.length := by
  simp only [startsWithL, decide_eq_true_eq] at h
  have : (s.take p.length).length = p.length := by rw [h]
  rw [List.length_take] at this
  omega

theorem greedyLoop_le {isW : Bool} {cs : Option (List Char)} {neg : Bool} {mx : Option Int} :
    ∀ {l : List Char} {n r : Nat}, greedyLoop isW cs neg mx l n = some r →
      n ≤ r ∧ r ≤ n + l.length := by
  intro l
  induction l with
  | nil =>
    intro n r h
    simp only [greedyLoop, Option.some.injEq] at h
    omega
  | cons c rest ih =>
    intro n r h
    simp only [greedyLoop] at h
    match hcm : charMatches isW cs neg c with
    | none => rw [hcm] at h; simp at h
    | some false =>
      rw [hcm] at h
      simp only [Option.some.injEq] at h
      simp only [List.length_cons]
      omega
    | some true =>
      rw [hcm] at h
      match hmx : mx with
      | some m =>
        simp only at h
        split at h
        · simp only [Option.some.injEq] at h
          simp only [List.length_cons]
          omega
        · have := ih h
          simp only [List.length_cons]
          omega
      | none =>
        have := ih h
        simp only [List.length_cons]
        omega

theorem descRange_mem_le {hi lo t : Nat} (h : t ∈ descRange hi lo) : t ≤ hi := by
  simp only [descRange, List.mem_map, List.mem_range] at h
  obtain ⟨k, _, hk⟩ := h
  omega

theorem tryList_success {cont : Nat → Option (Bool × Nat)} {pos mn : Nat} {mx : Option Int} :
    ∀ {ts : List Nat} {e : Nat}, tryList cont pos mn mx ts = some (true, e) →
      ∃ t ∈ ts, cont (pos + t) = some (true, e) := by
  intro ts
  induction ts with
  | nil =>
    intro e h
    simp [tryList] at h
  | cons t rest ih =>
    intro e h
    simp only [tryList] at h
    split at h
    · obtain ⟨t2, hm, hc⟩ := ih h
      exact ⟨t2, List.mem_cons_of_mem _ hm, hc⟩
    · split at h
      · obtain ⟨t2, hm, hc⟩ := ih h
        exact ⟨t2, List.mem_cons_of_mem _ hm, hc⟩
      · match hc : cont (pos + t) with
        | none => rw [hc] at h; simp at h
        | some (true, e2) =>
          rw [hc] at h
          simp only [Option.some.injEq, Prod.mk.injEq, true_and] at h
          exact ⟨t, List.mem_cons_self _ _, by rw [hc, h]⟩
        | some (false, w) =>
          rw [hc] at h
          simp only at h
          obtain ⟨t2, hm, hc2⟩ := ih h
          exact ⟨t2, List.mem_cons_of_mem _ hm, hc2⟩

theorem matchLits_success {cont : Nat → Option (Bool × Nat)} {text : List Char} {pos : Nat} :
    ∀ {lits : List (List Char)} {e : Nat}, matchLits cont text pos lits = some (true, e) →
      ∃ lit ∈ lits, startsWithL (text.drop pos) lit = true ∧
        cont (pos + lit.length) = some (true, e) := by
  intro lits
  induction lits with
  | nil =>
    intro e h
    simp [matchLits] at h
  | cons lit more ih =>
    intro e h
    simp only [matchLits] at h
    split at h
    · match hc : cont (pos + lit.length) with
      | none => rw [hc] at h; simp at h
      | some (true, e2) =>
        rw [hc] at h
        simp only [Option.some.injEq, Prod.mk.injEq, true_and] at h
        subst h
        exact ⟨lit, List.mem_cons_self _ _, by assumption, hc⟩
      | some (false, w) =>
        rw [hc] at h
        simp only at h
        obtain ⟨l2, hm, hsw, hc2⟩ := ih h
        exact ⟨l2, List.mem_cons_of_mem _ hm, hsw, hc2⟩
    · obtain ⟨l2, hm, hsw, hc2⟩ := ih h
      exact ⟨l2, List.mem_cons_of_mem _ hm, hsw, hc2⟩

theorem matchPatternNode_success {cont : Nat → Option (Bool × Nat)} {text : List Char}
    {pos mn : Nat} {cs : Option (List Char)} {mx : Option Int} {neg : Bool} {e : Nat}
    (h : matchPatternNode cont text pos cs mn mx neg = some (true, e)) :
    ∃ t, t ≤ (text.drop pos).length ∧ cont (pos + t) = some (true, e) := by
  simp only [matchPatternNode] at h
  rcases hg : greedyLoop cs.isNone (csOpt cs) neg mx (text.drop pos) 0 with _ | matchLen
  · rw [hg] at h
    simp at h
  · rw [hg] at h
    dsimp only at h
    have hml : matchLen ≤ (text.drop pos).length := by
      have := greedyLoop_le hg
      omega
    rcases htl : tryList cont pos mn mx (descRange matchLen mn) with _ | ⟨b, w⟩
    · rw [htl] at h
      simp at h
    · rw [htl] at h
      cases b
      · simp only at h
        split at h
        · rcases hc : cont pos with _ | ⟨b2, w2⟩
          · rw [hc] at h
            simp at h
          · rw [hc] at h
            cases b2
            · simp at h
            · simp only [Option.some.injEq, Prod.mk.injEq, true_and] at h
              subst h
              exact ⟨0, by omega, by rw [Nat.add_zero]; exact hc⟩
        · simp at h
      · simp only [Option.some.injEq, Prod.mk.injEq, true_and] at h
        subst h
        obtain ⟨t, hm, hc⟩ := tryList_success htl
        exact ⟨t, le_trans (descRange_mem_le hm) hml, hc⟩

theorem matchAt_true_bounds (text : List Char) :
    ∀ (ast : List ASTNode) (pos e : Nat), matchAt text ast pos = some (true, e) →
      pos ≤ e ∧ (pos ≤ text.length → e ≤ text.length) := by
  intro ast
  induction ast with
  | nil =>
    intro pos e h
    simp only [matchAt, Option.some.injEq, Prod.mk.injEq, true_and] at h
    omega
  | cons node rest ih =>
    intro pos e h
    cases node with
    | literalNode v =>
      simp only [matchAt] at h
      split at h
      · split at h
        · have := ih (pos + 1) e h
          rename_i hlt _
          constructor
          · omega
          · intro _
            exact this.2 (by omega)
        · simp at h
      · simp at h
    | patternNode cs mn mx neg lits =>
      simp only [matchAt] at h
      split at h
      · obtain ⟨lit, hm, hsw, hc⟩ := matchLits_success h
        have hb := ih (pos + lit.length) e hc
        have hll := startsWithL_le hsw
        rw [List.length_drop] at hll
        constructor
        · omega
        · intro hp
          exact hb.2 (by omega)
      · obtain ⟨t, ht, hc⟩ := matchPatternNode_success h
        have hb := ih (pos + t) e hc
        rw [List.length_drop] at ht
        constructor
        · omega
        · intro hp
          exact hb.2 (by omega)

/-! Claim C8: literal alternatives are tried in declared order and the
first alternative whose continuation succeeds determines the result. -/

theorem matchLits_first_success {cont : Nat → Option (Bool × Nat)} {text : List Char}
    {pos : Nat} (hcont : ∀ p, cont p ≠ none) :
    ∀ lits : List (List Char),
      (∀ e, matchLits cont text pos lits = some (true, e) ↔
        ∃ pre lit post, lits = pre ++ lit :: post ∧
          (∀ l ∈ pre, ¬(startsWithL (text.drop pos) l = true ∧
            ∃ e2, cont (pos + l.length) = some (true, e2))) ∧
          startsWithL (text.drop pos) lit = true ∧
          cont (pos + lit.length) = some (true, e)) ∧
      (matchLits cont text pos lits = some (false, pos) ↔
        ∀ l ∈ lits, ¬(startsWithL (text.drop pos) l = true ∧
          ∃ e2, cont (pos + l.length) = some (true, e2))) := by
  intro lits
  induction lits with
  | nil =>
    constructor
    · intro e
      constructor
      · intro h
        simp [matchLits] at h
      · rintro ⟨pre, lit, post, hdec, -⟩
        exact absurd hdec.symm (by simp)
    · constructor
      · intro _ l hl
        simp at hl
      · intro _
        simp [matchLits]
  | cons lit more ih =>
    by_cases hsw : startsWithL (text.drop pos) lit = true
    · rcases hc : cont (pos + lit.length) with _ | ⟨b, e0⟩
      · exact absurd hc (hcont _)
      · cases b
        · -- the alternative matched textually but its continuation failed
          have hstep : matchLits cont text pos (lit :: more) = matchLits cont text pos more := by
            simp [matchLits, hsw, hc]
          have hfail : ¬(startsWithL (text.drop pos) lit = true ∧
              ∃ e2, cont (pos + lit.length) = some (true, e2)) := by
            rintro ⟨-, e2, he2⟩
            rw [hc] at he2
            simp at he2
          constructor
          · intro e
            rw [hstep, (ih.1 e)]
            constructor
            · rintro ⟨pre, lit2, post, hdec, hpre, hsw2, hc2⟩
              refine ⟨lit :: pre, lit2, post, by simp [hdec], ?_, hsw2, hc2⟩
              intro l hl
              rcases List.mem_cons.mp hl with h1 | h2
              · rw [h1]
                exact hfail
              · exact hpre l h2
            · rintro ⟨pre, lit2, post, hdec, hpre, hsw2, hc2⟩
              cases pre with
              | nil =>
                simp only [List.nil_append, List.cons.injEq] at hdec
                rw [← hdec.1] at hsw2 hc2
                exact absurd ⟨hsw2, ⟨e, hc2⟩⟩ hfail
              | cons p pre2 =>
                simp only [List.cons_append, List.cons.injEq] at hdec
                exact ⟨pre2, lit2, post, hdec.2,
                  fun l hl => hpre l (List.mem_cons_of_mem _ hl), hsw2, hc2⟩
          · rw [hstep, ih.2]
            constructor
            · intro hall l hl
              rcases List.mem_cons.mp hl with h1 | h2
              · rw [h1]
                exact hfail
              · exact hall l h2
            · intro hall l hl
              exact hall l (List.mem_cons_of_mem _ hl)
        · -- first success: the result is this alternative
          have hstep : matchLits cont text pos (lit :: more) = some (true, e0) := by
            simp [matchLits, hsw, hc]
          constructor
          · intro e
            rw [hstep]
            constructor
            · intro h
              simp only [Option.some.injEq, Prod.mk.injEq, true_and] at h
              exact ⟨[], lit, more, rfl, by simp, hsw, by rw [hc, h]⟩
            · rintro ⟨pre, lit2, post, hdec, hpre, hsw2, hc2⟩
              cases pre with
              | nil =>
                simp only [List.nil_append, List.cons.injEq] at hdec
                rw [← hdec.1] at hc2
                rw [hc] at hc2
                simp only [Option.some.injEq, Prod.mk.injEq, true_and] at hc2
                rw [hc2]
              | cons p pre2 =>
                simp only [List.cons_append, List.cons.injEq] at hdec
                have hp := hpre p (List.mem_cons_self _ _)
                rw [← hdec.1] at hp
                exact absurd ⟨hsw, ⟨e0, hc⟩⟩ hp
          · rw [hstep]
            constructor
            · intro h
              simp at h
            · intro hall
              exact absurd ⟨hsw, ⟨e0, hc⟩⟩ (hall lit (List.mem_cons_self _ _))
    · have hstep : matchLits cont text pos (lit :: more) = matchLits cont text pos more := by
        simp only [matchLits, hsw, if_neg]
        simp [hsw]
      have hfail : ¬(startsWithL (text.drop pos) lit = true ∧
          ∃ e2, cont (pos + lit.length) = some (true, e2)) := by
        rintro ⟨h1, -⟩
        exact hsw h1
      constructor
      · intro e
        rw [hstep, (ih.1 e)]
        constructor
        · rintro ⟨pre, lit2, post, hdec, hpre, hsw2, hc2⟩
          refine ⟨lit :: pre, lit2, post, by simp [hdec], ?_, hsw2, hc2⟩
          intro l hl
          rcases List.mem_cons.mp hl with h1 | h2
          · rw [h1]
            exact hfail
          · exact hpre l h2
        · rintro ⟨pre, lit2, post, hdec, hpre, hsw2, hc2⟩
          cases pre with
          | nil =>
            simp only [List.nil_append, List.cons.injEq] at hdec
            rw [← hdec.1] at hsw2
            exact absurd hsw2 hsw
          | cons p pre2 =>
            simp only [List.cons_append, List.cons.injEq] at hdec
            exact ⟨pre2, lit2, post, hdec.2,
              fun l hl => hpre l (List.mem_cons_of_mem _ hl), hsw2, hc2⟩
      · rw [hstep, ih.2]
        constructor
        · intro hall l hl
          rcases List.mem_cons.mp hl with h1 | h2
          · rw [h1]
            exact hfail
          · exact hall l h2
        · intro hall l hl
          exact hall l (List.mem_cons_of_mem _ hl)

/-- C8: for a pattern node with literal alternatives, matching at any text
and position tries the alternatives in declared order: the node succeeds
with end e exactly when some alternative is a textual match at the position,
its continuation (rest of the AST, position advanced by its length) succeeds
with e, and every earlier alternative either is no textual match or has a
failing continuation; the node fails exactly when no alternative has both.
The continuation is assumed not to raise (the node after it has a non-empty
resolved character set). -/
theorem c8_literal_alternatives {text : List Char} {pos mn : Nat}
    {cs : Option (List Char)} {mx : Option Int} {neg : Bool}
    {lits : List (List Char)} {rest : List ASTNode}
    (hcont : ∀ p, matchAt text rest p ≠ none) (hne : lits ≠ []) :
    (∀ e, matchAt text (.patternNode cs mn mx neg (some lits) :: rest) pos = some (true, e) ↔
      ∃ pre lit post, lits = pre ++ lit :: post ∧
        (∀ l ∈ pre, ¬(startsWithL (text.drop pos) l = true ∧
          ∃ e2, matchAt text rest (pos + l.length) = some (true, e2))) ∧
        startsWithL (text.drop pos) lit = true ∧
        matchAt text rest (pos + lit.length) = some (true, e)) ∧
    (matchAt text (.patternNode cs mn mx neg (some lits) :: rest) pos = some (false, pos) ↔
      ∀ l ∈ lits, ¬(startsWithL (text.drop pos) l = true ∧
        ∃ e2, matchAt text rest (pos + l.length) = some (true, e2))) := by
  have hT : litsTruthy (some lits) = true := by
    cases lits with
    | nil => exact absurd rfl hne
    | cons a b => rfl
  have hunfold : matchAt text (.patternNode cs mn mx neg (some lits) :: rest) pos =
      matchLits (fun p => matchAt text rest p) text pos lits := by
    simp [matchAt, hT]
  constructor
  · intro e
    rw [hunfold]
    exact (matchLits_first_success hcont lits).1 e
  · rw [hunfold]
    exact (matchLits_first_success hcont lits).2

/-- C8 witness: the characterization applied at the node compiled from
range backtick ab backtick pipe backtick a backtick over the text ab with
an empty AST continuation. -/
theorem c8_witness :
    (∀ e, matchAt "ab".toList
        (.patternNode none 1 none false (some ["ab".toList, "a".toList]) :: []) 0 =
          some (true, e) ↔
      ∃ pre lit post, ["ab".toList, "a".toList] = pre ++ lit :: post ∧
        (∀ l ∈ pre, ¬(startsWithL ("ab".toList.drop 0) l = true ∧
          ∃ e2, matchAt "ab".toList [] (0 + l.length) = some (true, e2))) ∧
        startsWithL ("ab".toList.drop 0) lit = true ∧
        matchAt "ab".toList [] (0 + lit.length) = some (true, e)) ∧
    (matchAt "ab".toList
        (.patternNode none 1 none false (some ["ab".toList, "a".toList]) :: []) 0 =
          some (false, 0) ↔
      ∀ l ∈ ["ab".toList, "a".toList], ¬(startsWithL ("ab".toList.drop 0) l = true ∧
        ∃ e2, matchAt "ab".toList [] (0 + l.length) = some (true, e2))) :=
  c8_literal_alternatives (fun p => by simp [matchAt]) (by decide)

/-! Claim C2: find_first scans start offsets in increasing order, but the
range it scans is range(len(text)), which EXCLUDES the offset len(text):
on the empty text no offset is tried at all, so even a pattern whose AST
matches the empty string yields not-found there. -/

theorem findFirstScan_range_spec (ast : List ASTNode) (text : List Char) :
    ∀ (n s0 : Nat),
      (∀ s e, findFirstScan ast text (List.range' s0 n) = some (some (s, e)) ↔
        (s0 ≤ s ∧ s < s0 + n ∧ matchAt text ast s = some (true, e) ∧
          ∀ j, s0 ≤ j → j < s → ∃ w, matchAt text ast j = some (false, w))) ∧
      (findFirstScan ast text (List.range' s0 n) = some none ↔
        ∀ j, s0 ≤ j → j < s0 + n → ∃ w, matchAt text ast j = some (false, w)) := by
  intro n
  induction n with
  | zero =>
    intro s0
    constructor
    · intro s e
      constructor
      · intro h
        simp [List.range', findFirstScan] at h
      · rintro ⟨h1, h2, -⟩
        omega
    · constructor
      · intro _ j hj1 hj2
        omega
      · intro _
        simp [List.range', findFirstScan]
  | succ n ih =>
    intro s0
    have hr : List.range' s0 (n + 1) = s0 :: List.range' (s0 + 1) n := rfl
    rw [hr]
    rcases hm : matchAt text ast s0 with _ | ⟨b, w0⟩
    · have hL : findFirstScan ast text (s0 :: List.range' (s0 + 1) n) = none := by
        simp [findFirstScan, hm]
      constructor
      · intro s e
        rw [hL]
        constructor
        · intro h
          simp at h
        · rintro ⟨h1, h2, h3, h4⟩
          by_cases hs : s = s0
          · rw [hs] at h3
            rw [hm] at h3
            simp at h3
          · obtain ⟨w, hw⟩ := h4 s0 (le_refl _) (by omega)
            rw [hm] at hw
            simp at hw
      · rw [hL]
        constructor
        · intro h
          simp at h
        · intro hall
          obtain ⟨w, hw⟩ := hall s0 (le_refl _) (by omega)
          rw [hm] at hw
          simp at hw
    · cases b
      · -- failure at s0: the scan continues at s0 + 1
        have hL : findFirstScan ast text (s0 :: List.range' (s0 + 1) n) =
            findFirstScan ast text (List.range' (s0 + 1) n) := by
          simp [findFirstScan, hm]
        constructor
        · intro s e
          rw [hL, ((ih (s0 + 1)).1 s e)]
          constructor
          · rintro ⟨h1, h2, h3, h4⟩
            refine ⟨by omega, by omega, h3, ?_⟩
            intro j hj1 hj2
            by_cases hj : j = s0
            · exact ⟨w0, by rw [hj]; exact hm⟩
            · exact h4 j (by omega) hj2
          · rintro ⟨h1, h2, h3, h4⟩
            have hs : s ≠ s0 := by
              intro hs
              rw [hs, hm] at h3
              simp at h3
            exact ⟨by omega, by omega, h3, fun j hj1 hj2 => h4 j (by omega) hj2⟩
        · rw [hL, (ih (s0 + 1)).2]
          constructor
          · intro hall j hj1 hj2
            by_cases hj : j = s0
            · exact ⟨w0, by rw [hj]; exact hm⟩
            · exact hall j (by omega) (by omega)
          · intro hall j hj1 hj2
            exact hall j (by omega) (by omega)
      · -- success at s0: the scan stops with span (s0, w0)
        have hL : findFirstScan ast text (s0 :: List.range' (s0 + 1) n) =
            some (some (s0, w0)) := by
          simp [findFirstScan, hm]
        constructor
        · intro s e
          rw [hL]
          constructor
          · intro h
            simp only [Option.some.injEq, Prod.mk.injEq] at h
            refine ⟨by omega, by omega, by rw [← h.1, ← h.2]; exact hm, ?_⟩
            intro j hj1 hj2
            omega
          · rintro ⟨h1, h2, h3, h4⟩
            by_cases hs : s = s0
            · rw [hs] at h3
              rw [hm] at h3
              simp only [Option.some.injEq, Prod.mk.injEq, true_and] at h3
              rw [hs, h3]
            · obtain ⟨w, hw⟩ := h4 s0 (le_refl _) (by omega)
              rw [hm] at hw
              simp at hw
        · rw [hL]
          constructor
          · intro h
            simp at h
          · intro hall
            obtain ⟨w, hw⟩ := hall s0 (le_refl _) (by omega)
            rw [hm] at hw
            simp at hw

/-- C2 amended: find_first scans exactly the offsets 0..len(text)-1 in
increasing order and returns the first success; offset len(text) is never
tried, so on the empty text the result is always not-found, even for
patterns whose AST matches the empty string. -/
theorem c2_amended (ast : List ASTNode) (text : List Char) :
    (∀ s e, findFirst ast text = some (some (s, e)) ↔
      (s < text.length ∧ matchAt text ast s = some (true, e) ∧
        ∀ j, j < s → ∃ w, matchAt text ast j = some (false, w))) ∧
    ((findFirst ast text = some none) ↔
      ∀ j, j < text.length → ∃ w, matchAt text ast j = some (false, w)) := by
  have hspec := findFirstScan_range_spec ast text text.length 0
  unfold findFirst
  rw [List.range_eq_range']
  constructor
  · intro s e
    rw [hspec.1 s e]
    constructor
    · rintro ⟨-, h2, h3, h4⟩
      exact ⟨by omega, h3, fun j hj => h4 j (by omega) hj⟩
    · rintro ⟨h1, h2, h3⟩
      exact ⟨by omega, by omega, h2, fun j _ hj => h3 j hj⟩
  · rw [hspec.2]
    constructor
    · intro hall j hj
      exact hall j (by omega) (by omega)
    · intro hall j _ hj
      exact hall j (by omega)

/-- AST that the pattern [dec::>=0] compiles to: a single decimal-set node
with minimum length 0. -/
def astMin0 : List ASTNode := [.patternNode (some digitsList) 0 none false none]

theorem parseAst_min0_eval : parseAst "[dec::>=0]".toList = .ok astMin0 := by
  simp [parseAst, tokenize, tokenizeLoop, splitAtChar, parsePatternContent, splitOnChar,
    parseCharType, stripList, pyIsSpace, parseRange, defaultCharSet, parseLength,
    parseLengthLoop, extractNumber, digitsToNat, scanCharSet, sortedSet, insertChar,
    rangeChars, parseLiterals, parseLiteralsLoop, Token.mkLiteral, digitsList,
    List.dropWhile, List.takeWhile, Except.map, tokenToNode, LengthConstraint.get_min,
    LengthConstraint.get_max, astMin0]

/-- C2 counterexample: the pattern [dec::>=0] compiles to an AST that
matches the empty string (matchAt succeeds at offset 0 of the empty text),
yet find_first on the empty text returns not-found: offset len(text) = 0 is
not scanned, refuting the claimed inclusive range and the claimed success
of empty-matching patterns on the empty text. -/
theorem c2_counterexample :
    parseAst "[dec::>=0]".toList = .ok astMin0 ∧
      matchAt [] astMin0 0 = some (true, 0) ∧
      findFirst astMin0 [] = some none :=
  ⟨parseAst_min0_eval, rfl, rfl⟩

/-! Claim C1: find_all does terminate whenever every anchored success
consumes at least one character, but the source loop advances the cursor to
the match end, so a zero-width success (possible with min length 0, e.g.
the pattern [dec::>=0]) leaves the cursor in place forever. -/

theorem findAllLoop_min0_running :
    ∀ fuel, findAllLoop astMin0 "a".toList fuel 0 = LoopOut.running := by
  intro fuel
  induction fuel with
  | zero =>
    simp [findAllLoop]
  | succ f ih =>
    have hm : matchAt "a".toList astMin0 0 = some (true, 0) := by decide
    simp only [findAllLoop, hm]
    rw [if_pos (by decide)]
    rw [ih]

/-- C1 counterexample: the pattern [dec::>=0] compiles without error, and
find_all on the text a never terminates: no amount of fuel makes the cursor
loop finish, because the matcher keeps succeeding with a zero-width match
at cursor 0 and the cursor never advances. -/
theorem c1_counterexample :
    parseAst "[dec::>=0]".toList = .ok astMin0 ∧
      ¬FindAllTerminates astMin0 "a".toList := by
  refine ⟨parseAst_min0_eval, ?_⟩
  rintro ⟨fuel, hf⟩
  exact hf (findAllLoop_min0_running fuel)

theorem findAllLoop_done_of_progress (ast : List ASTNode) (text : List Char)
    (hyp : ∀ pos, pos < text.length → ∃ b e, matchAt text ast pos = some (b, e) ∧
      (b = true → pos < e)) :
    ∀ fuel pos, text.length - pos < fuel →
      ∃ spans, findAllLoop ast text fuel pos = LoopOut.done spans := by
  intro fuel
  induction fuel with
  | zero =>
    intro pos h
    omega
  | succ f ih =>
    intro pos h
    by_cases hpos : pos < text.length
    · obtain ⟨b, e, hm, hprog⟩ := hyp pos hpos
      cases b
      · obtain ⟨spans, hs⟩ := ih (pos + 1) (by omega)
        refine ⟨spans, ?_⟩
        simp only [findAllLoop, hm]
        rw [if_pos hpos]
        exact hs
      · have he : pos < e := hprog rfl
        obtain ⟨spans, hs⟩ := ih e (by omega)
        refine ⟨(pos, e) :: spans, ?_⟩
        simp only [findAllLoop, hm]
        rw [if_pos hpos]
        rw [hs]
    · refine ⟨[], ?_⟩
      simp only [findAllLoop]
      rw [if_neg hpos]

/-- C1 amended: for every compiled pattern and text such that every
anchored match attempt inside the text neither raises nor succeeds with a
zero-width match (end = cursor), find-all terminates with the cursor loop
of the source - advancing to the match end on success, by one character on
failure, stopping when the cursor leaves the text - and returns the ordered
list of matched spans; with a zero-width success the loop runs forever (see
the counterexample). -/
theorem c1_amended (ast : List ASTNode) (text : List Char)
    (hyp : ∀ pos, pos < text.length → ∃ b e, matchAt text ast pos = some (b, e) ∧
      (b = true → pos < e)) :
    FindAllTerminates ast text ∧
      ∃ spans, findAllLoop ast text (text.length + 1) 0 = LoopOut.done spans := by
  obtain ⟨spans, hs⟩ := findAllLoop_done_of_progress ast text hyp (text.length + 1) 0 (by omega)
  exact ⟨⟨text.length + 1, by rw [hs]; exact fun h => LoopOut.noConfusion h⟩, spans, hs⟩

/-- AST that the pattern [dec::] compiles to. -/
def astDec : List ASTNode := [.patternNode (some digitsList) 1 none false none]

/-- C1 witness: the amended statement at the AST of [dec::] over the text
abc123, whose hypothesis is checked offset by offset. -/
theorem c1_witness :
    FindAllTerminates astDec "abc123".toList ∧
      ∃ spans, findAllLoop astDec "abc123".toList ("abc123".toList.length + 1) 0 =
        LoopOut.done spans := by
  apply c1_amended
  intro pos hpos
  have hpos6 : pos < 6 := by simpa using hpos
  interval_cases pos
  · exact ⟨false, 0, by decide, by simp⟩
  · exact ⟨false, 1, by decide, by simp⟩
  · exact ⟨false, 2, by decide, by simp⟩
  · exact ⟨true, 6, by decide, fun _ => by omega⟩
  · exact ⟨true, 6, by decide, fun _ => by omega⟩
  · exact ⟨true, 6, by decide, fun _ => by omega⟩

/-! Claim C5: the spans that a terminating find_all records are chained -
each span is non-empty, inside the text, and starts no earlier than the end
of the previous one - and interleaving the matched substrings with the
unmatched gaps reconstructs the text. -/

/-- Chained spans: starting from cursor pos, every span starts at or after
the cursor, is non-empty, ends inside the text, and hands the cursor to its
end. -/
def SpanChain (text : List Char) : Nat → List (Nat × Nat) → Prop
  | _, [] => True
  | pos, (s, e) :: rest => pos ≤ s ∧ s < e ∧ e ≤ text.length ∧ SpanChain text e rest

/-- Interleaving of unmatched gaps and matched substrings from cursor pos:
the gap before each span, then the span substring, then the rest; the final
gap is everything after the last span. -/
def stitch (text : List Char) : Nat → List (Nat × Nat) → List Char
  | pos, [] => text.drop pos
  | pos, (s, e) :: rest => extractSub text pos s ++ (extractSub text s e ++ stitch text e rest)

theorem SpanChain_mono (text : List Char) {p q : Nat} (hpq : p ≤ q) :
    ∀ {l : List (Nat × Nat)}, SpanChain text q l → SpanChain text p l := by
  intro l h
  cases l with
  | nil => trivial
  | cons sp rest =>
    obtain ⟨s, e⟩ := sp
    obtain ⟨h1, h2, h3, h4⟩ := h
    exact ⟨by omega, h2, h3, h4⟩

theorem SpanChain_pairwise (text : List Char) :
    ∀ (l : List (Nat × Nat)) (pos : Nat), SpanChain text pos l →
      List.Pairwise (fun a b : Nat × Nat => a.2 ≤ b.1 ∧ a.1 < b.1) l ∧
      ∀ sp ∈ l, pos ≤ sp.1 ∧ sp.1 < sp.2 ∧ sp.2 ≤ text.length := by
  intro l
  induction l with
  | nil =>
    intro pos _
    exact ⟨List.Pairwise.nil, by simp⟩
  | cons sp rest ih =>
    obtain ⟨s, e⟩ := sp
    rintro pos ⟨h1, h2, h3, h4⟩
    obtain ⟨hpw, hmem⟩ := ih e h4
    constructor
    · refine List.Pairwise.cons ?_ hpw
      intro b hb
      have hbb := hmem b hb
      exact ⟨hbb.1, by omega⟩
    · intro sp2 hsp2
      rcases List.mem_cons.mp hsp2 with hh | hh
      · rw [hh]
        exact ⟨h1, h2, h3⟩
      · have hbb := hmem sp2 hh
        exact ⟨by omega, hbb.2.1, hbb.2.2⟩

theorem extractSub_self (text : List Char) (pos : Nat) : extractSub text pos pos = [] := by
  unfold extractSub
  apply List.drop_eq_nil_of_le
  rw [List.length_take]
  omega

theorem extractSub_append_drop (text : List Char) {pos e : Nat} (h1 : pos ≤ e)
    (h2 : e ≤ text.length) : extractSub text pos e ++ text.drop e = text.drop pos := by
  conv_rhs => rw [← List.take_append_drop e text]
  rw [List.drop_append_eq_append_drop]
  have hz : pos - (text.take e).length = 0 := by
    rw [List.length_take]
    omega
  rw [hz, List.drop_zero]
  rfl

theorem extractSub_cons (text : List Char) {pos s : Nat} (h1 : pos < s)
    (h2 : pos < text.length) :
    extractSub text pos s = text.get ⟨pos, h2⟩ :: extractSub text (pos + 1) s := by
  unfold extractSub
  have hlen : pos < (text.take s).length := by
    rw [List.length_take]
    omega
  rw [List.drop_eq_getElem_cons hlen]
  congr 1
  rw [List.getElem_take]
  simp [List.get_eq_getElem]

theorem stitch_step (text : List Char) (pos : Nat) (spans : List (Nat × Nat))
    (hpos : pos < text.length) (hchain : SpanChain text (pos + 1) spans)
    (hs : stitch text (pos + 1) spans = text.drop (pos + 1)) :
    stitch text pos spans = text.drop pos := by
  cases spans with
  | nil => rfl
  | cons sp rest =>
    obtain ⟨s, e⟩ := sp
    obtain ⟨h1, h2, h3, h4⟩ := hchain
    simp only [stitch] at hs ⊢
    rw [extractSub_cons text (by omega) hpos]
    rw [List.cons_append, hs]
    rw [List.drop_eq_getElem_cons hpos]
    simp [List.get_eq_getElem]

theorem findAllLoop_no_done_of_still (ast : List ASTNode) (text : List Char)
    {pos : Nat} (hpos : pos < text.length) (hm : matchAt text ast pos = some (true, pos)) :
    ∀ fuel spans, findAllLoop ast text fuel pos ≠ LoopOut.done spans := by
  intro fuel
  induction fuel with
  | zero =>
    intro spans
    simp only [findAllLoop]
    rw [if_pos hpos]
    exact fun h => LoopOut.noConfusion h
  | succ f ih =>
    intro spans
    simp only [findAllLoop, hm]
    rw [if_pos hpos]
    rcases hrec : findAllLoop ast text f pos with spans2 | _ | _
    · exact absurd hrec (ih spans2)
    · exact fun h => LoopOut.noConfusion h
    · exact fun h => LoopOut.noConfusion h

theorem findAllLoop_done_spec (ast : List ASTNode) (text : List Char) :
    ∀ (fuel pos : Nat) (spans : List (Nat × Nat)), pos ≤ text.length →
      findAllLoop ast text fuel pos = LoopOut.done spans →
      SpanChain text pos spans ∧ stitch text pos spans = text.drop pos := by
  intro fuel
  induction fuel with
  | zero =>
    intro pos spans hpos h
    by_cases hlt : pos < text.length
    · simp only [findAllLoop] at h
      rw [if_pos hlt] at h
      exact absurd h (fun hh => LoopOut.noConfusion hh)
    · simp only [findAllLoop] at h
      rw [if_neg hlt] at h
      injection h with h2
      rw [← h2]
      exact ⟨trivial, rfl⟩
  | succ f ih =>
    intro pos spans hpos h
    by_cases hlt : pos < text.length
    · simp only [findAllLoop] at h
      rw [if_pos hlt] at h
      rcases hm : matchAt text ast pos with _ | ⟨b, e⟩
      · rw [hm] at h
        exact absurd h (fun hh => LoopOut.noConfusion hh)
      · rw [hm] at h
        cases b
        · dsimp only at h
          have hrec := ih (pos + 1) spans (by omega) h
          exact ⟨SpanChain_mono text (by omega) hrec.1,
            stitch_step text pos spans hlt hrec.1 hrec.2⟩
        · dsimp only at h
          rcases hrec : findAllLoop ast text f e with spans2 | _ | _
          · rw [hrec] at h
            injection h with h2
            have hbounds := matchAt_true_bounds text ast pos e hm
            have hele : e ≤ text.length := hbounds.2 hpos
            have hne : pos ≠ e := by
              intro heq
              rw [← heq] at hrec
              rw [← heq] at hm
              exact findAllLoop_no_done_of_still ast text hlt hm f spans2 hrec
            have hsub := ih e spans2 hele hrec
            rw [← h2]
            refine ⟨⟨le_refl pos, by omega, hele, hsub.1⟩, ?_⟩
            simp only [stitch]
            rw [extractSub_self, List.nil_append, hsub.2]
            exact extractSub_append_drop text (by omega) hele
          · rw [hrec] at h
            exact absurd h (fun hh => LoopOut.noConfusion hh)
          · rw [hrec] at h
            exact absurd h (fun hh => LoopOut.noConfusion hh)
    · simp only [findAllLoop] at h
      rw [if_neg hlt] at h
      injection h with h2
      rw [← h2]
      exact ⟨trivial, rfl⟩

/-- C5: whenever the find_all cursor loop returns (any fuel that makes it
finish with a result list), the recorded spans are pairwise non-overlapping
(each ends no later than the next starts), strictly increasing in start
offset, non-empty and inside the text, and stitching the matched substrings
together with the intervening unmatched gaps reconstructs the text exactly. -/
theorem c5_find_all_spans (ast : List ASTNode) (text : List Char) (fuel : Nat)
    (spans : List (Nat × Nat)) (h : findAllLoop ast text fuel 0 = LoopOut.done spans) :
    List.Pairwise (fun a b : Nat × Nat => a.2 ≤ b.1 ∧ a.1 < b.1) spans ∧
      (∀ sp ∈ spans, sp.1 < sp.2 ∧ sp.2 ≤ text.length) ∧
      stitch text 0 spans = text := by
  have hspec := findAllLoop_done_spec ast text fuel 0 spans (by omega) h
  have hp := SpanChain_pairwise text spans 0 hspec.1
  refine ⟨hp.1, fun sp hsp => ⟨(hp.2 sp hsp).2.1, (hp.2 sp hsp).2.2⟩, ?_⟩
  have := hspec.2
  rwa [List.drop_zero] at this

/-- C5 witness: find_all of [dec::] over abc123def456 returns the spans
(3,6) and (9,12), which satisfy all three conclusions. -/
theorem c5_witness :
    List.Pairwise (fun a b : Nat × Nat => a.2 ≤ b.1 ∧ a.1 < b.1) [(3, 6), (9, 12)] ∧
      (∀ sp ∈ [((3 : Nat), (6 : Nat)), (9, 12)], sp.1 < sp.2 ∧ sp.2 ≤ "abc123def456".toList.length) ∧
      stitch "abc123def456".toList 0 [(3, 6), (9, 12)] = "abc123def456".toList :=
  c5_find_all_spans astDec "abc123def456".toList 13 [(3, 6), (9, 12)] (by decide)

/-! Claim C7: length-constraint resolution. -/

theorem stripList_eq_self {l : List Char} (h : ∀ c ∈ l, pyIsSpace c = false) :
    stripList l = l := by
  have h1 : l.dropWhile pyIsSpace = l := by
    cases l with
    | nil => rfl
    | cons c cs => simp [List.dropWhile_cons, h c (List.mem_cons_self _ _)]
  have h2 : l.reverse.dropWhile pyIsSpace = l.reverse := by
    cases hrev : l.reverse with
    | nil => rfl
    | cons c cs =>
      have hc : c ∈ l := by
        rw [← List.mem_reverse, hrev]
        exact List.mem_cons_self _ _
      simp [List.dropWhile_cons, h c hc]
  unfold stripList
  rw [h1, h2, List.reverse_reverse]

theorem nonspace_of_digit {c : Char} (h : c.isDigit = true) : pyIsSpace c = false := by
  by_contra hc
  rw [Bool.not_eq_false] at hc
  simp only [pyIsSpace, Bool.or_eq_true, decide_eq_true_eq] at hc
  rcases hc with ((((e | e) | e) | e) | e) | e <;> (rw [e] at h; exact absurd h (by decide))

theorem extractNumber_all_digits {ds : List Char} (hne : ds ≠ [])
    (hd : ∀ c ∈ ds, Char.isDigit c = true) :
    extractNumber ds = some (digitsToNat ds, []) := by
  have ht : ds.takeWhile Char.isDigit = ds := List.takeWhile_eq_self_iff.mpr hd
  have hdp : ds.dropWhile Char.isDigit = [] := List.dropWhile_eq_nil_iff.mpr hd
  unfold extractNumber
  simp only [ht, hdp]
  rw [if_neg hne]

theorem parseLengthLoop_done (pos : Nat) (mn : Option Nat) (mx : Option Int) :
    parseLengthLoop pos [] mn mx = .ok (mn, mx) := by
  simp [parseLengthLoop]

/-- C7: length-constraint resolution, for every non-empty all-digits
numeral ds with value N = digitsToNat ds: the empty field resolves to min 1,
max unbounded; a bare numeral to the exact constraint exposing min N and
max N; the field >=ds to min N; <=ds to max N (min defaulting to 1); >ds to
min N+1; <ds to max N-1; the combined operator fields >1<5 and >=1<=5 to
(2,4) and (1,5); and >=0 sets min to 0. -/
theorem c7_length_resolution (ds : List Char) (hne : ds ≠ [])
    (hd : ∀ c ∈ ds, Char.isDigit c = true) :
    (∀ pos, parseLength [] pos = .ok ⟨some 1, none, none⟩) ∧
    (∀ pos, parseLength ds pos = .ok ⟨some 1, none, some (digitsToNat ds)⟩ ∧
      (⟨some 1, none, some (digitsToNat ds)⟩ : LengthConstraint).get_min = digitsToNat ds ∧
      (⟨some 1, none, some (digitsToNat ds)⟩ : LengthConstraint).get_max =
        some (digitsToNat ds : Int)) ∧
    (∀ pos, parseLength ('>' :: '=' :: ds) pos = .ok ⟨some (digitsToNat ds), none, none⟩) ∧
    (∀ pos, parseLength ('<' :: '=' :: ds) pos =
      .ok ⟨some 1, some (digitsToNat ds : Int), none⟩) ∧
    (∀ pos, parseLength ('>' :: ds) pos = .ok ⟨some (digitsToNat ds + 1), none, none⟩) ∧
    (∀ pos, parseLength ('<' :: ds) pos =
      .ok ⟨some 1, some ((digitsToNat ds : Int) - 1), none⟩) ∧
    (∀ pos, parseLength ">1<5".toList pos = .ok ⟨some 2, some 4, none⟩) ∧
    (∀ pos, parseLength ">=1<=5".toList pos = .ok ⟨some 1, some 5, none⟩) ∧
    (∀ pos, parseLength ">=0".toList pos = .ok ⟨some 0, none, none⟩) := by
  have hnonspace : ∀ c ∈ ds, pyIsSpace c = false := fun c hc => nonspace_of_digit (hd c hc)
  have hnodigit : ∀ (c : Char), c = '>' ∨ c = '<' ∨ c = '=' → Char.isDigit c = false := by
    rintro c (e | e | e) <;> (rw [e]; decide)
  have hex := extractNumber_all_digits hne hd
  refine ⟨?_, ?_, ?_, ?_, ?_, ?_, ?_, ?_, ?_⟩
  · intro pos
    simp [parseLength, stripList]
  · intro pos
    refine ⟨?_, rfl, rfl⟩
    simp only [parseLength, stripList_eq_self hnonspace]
    rw [if_neg hne, if_pos (by simp [List.all_eq_true]; exact hd)]
  · intro pos
    have hstrip : stripList ('>' :: '=' :: ds) = '>' :: '=' :: ds := by
      apply stripList_eq_self
      intro c hc
      rcases List.mem_cons.mp hc with e | hc2
      · rw [e]; decide
      · rcases List.mem_cons.mp hc2 with e | hc3
        · rw [e]; decide
        · exact hnonspace c hc3
    simp only [parseLength, hstrip]
    rw [if_neg (by simp)]
    rw [if_neg (by simp [List.all_cons])]
    rw [parseLengthLoop]
    split
    · rename_i e heq
      rw [hex] at heq
      dsimp only at heq
      rw [parseLengthLoop_done] at heq
      exact Except.noConfusion heq
    · rename_i p heq
      rw [hex] at heq
      dsimp only at heq
      rw [parseLengthLoop_done] at heq
      injection heq with heq2
      rw [← heq2]
  · intro pos
    have hstrip : stripList ('<' :: '=' :: ds) = '<' :: '=' :: ds := by
      apply stripList_eq_self
      intro c hc
      rcases List.mem_cons.mp hc with e | hc2
      · rw [e]; decide
      · rcases List.mem_cons.mp hc2 with e | hc3
        · rw [e]; decide
        · exact hnonspace c hc3
    simp only [parseLength, hstrip]
    rw [if_neg (by simp)]
    rw [if_neg (by simp [List.all_cons])]
    rw [parseLengthLoop]
    split
    · rename_i e heq
      rw [hex] at heq
      dsimp only at heq
      rw [parseLengthLoop_done] at heq
      exact Except.noConfusion heq
    · rename_i p heq
      rw [hex] at heq
      dsimp only at heq
      rw [parseLengthLoop_done] at heq
      injection heq with heq2
      rw [← heq2]
  · intro pos
    have hstrip : stripList ('>' :: ds) = '>' :: ds := by
      apply stripList_eq_self
      intro c hc
      rcases List.mem_cons.mp hc with e | hc2
      · rw [e]; decide
      · exact hnonspace c hc2
    simp only [parseLength, hstrip]
    rw [if_neg (by simp)]
    rw [if_neg (by simp [List.all_cons])]
    rw [parseLengthLoop]
    split
    · rename_i e heq
      rw [hex] at heq
      dsimp only at heq
      rw [parseLengthLoop_done] at heq
      exact Except.noConfusion heq
    · rename_i p heq
      rw [hex] at heq
      dsimp only at heq
      rw [parseLengthLoop_done] at heq
      injection heq with heq2
      rw [← heq2]
    · intro cs1 hcs
      have hdd := hd '=' (by rw [hcs]; exact List.mem_cons_self _ _)
      exact absurd hdd (by decide)
  · intro pos
    have hstrip : stripList ('<' :: ds) = '<' :: ds := by
      apply stripList_eq_self
      intro c hc
      rcases List.mem_cons.mp hc with e | hc2
      · rw [e]; decide
      · exact hnonspace c hc2
    simp only [parseLength, hstrip]
    rw [if_neg (by simp)]
    rw [if_neg (by simp [List.all_cons])]
    rw [parseLengthLoop]
    split
    · rename_i e heq
      rw [hex] at heq
      dsimp only at heq
      rw [parseLengthLoop_done] at heq
      exact Except.noConfusion heq
    · rename_i p heq
      rw [hex] at heq
      dsimp only at heq
      rw [parseLengthLoop_done] at heq
      injection heq with heq2
      rw [← heq2]
    · intro cs1 hcs
      have hdd := hd '=' (by rw [hcs]; exact List.mem_cons_self _ _)
      exact absurd hdd (by decide)
  · intro pos
    simp [parseLength, parseLengthLoop, extractNumber, digitsToNat, stripList, pyIsSpace,
      List.dropWhile, List.takeWhile]
  · intro pos
    simp [parseLength, parseLengthLoop, extractNumber, digitsToNat, stripList, pyIsSpace,
      List.dropWhile, List.takeWhile]
  · intro pos
    simp [parseLength, parseLengthLoop, extractNumber, digitsToNat, stripList, pyIsSpace,
      List.dropWhile, List.takeWhile]

/-- C7 witness: the resolution rules at the numeral 5. -/
theorem c7_witness :
    (∀ pos, parseLength [] pos = .ok ⟨some 1, none, none⟩) ∧
    (∀ pos, parseLength "5".toList pos = .ok ⟨some 1, none, some (digitsToNat "5".toList)⟩ ∧
      (⟨some 1, none, some (digitsToNat "5".toList)⟩ : LengthConstraint).get_min =
        digitsToNat "5".toList ∧
      (⟨some 1, none, some (digitsToNat "5".toList)⟩ : LengthConstraint).get_max =
        some (digitsToNat "5".toList : Int)) ∧
    (∀ pos, parseLength ('>' :: '=' :: "5".toList) pos =
      .ok ⟨some (digitsToNat "5".toList), none, none⟩) ∧
    (∀ pos, parseLength ('<' :: '=' :: "5".toList) pos =
      .ok ⟨some 1, some (digitsToNat "5".toList : Int), none⟩) ∧
    (∀ pos, parseLength ('>' :: "5".toList) pos =
      .ok ⟨some (digitsToNat "5".toList + 1), none, none⟩) ∧
    (∀ pos, parseLength ('<' :: "5".toList) pos =
      .ok ⟨some 1, some ((digitsToNat "5".toList : Int) - 1), none⟩) ∧
    (∀ pos, parseLength ">1<5".toList pos = .ok ⟨some 2, some 4, none⟩) ∧
    (∀ pos, parseLength ">=1<=5".toList pos = .ok ⟨some 1, some 5, none⟩) ∧
    (∀ pos, parseLength ">=0".toList pos = .ok ⟨some 0, none, none⟩) :=
  c7_length_resolution "5".toList (by decide) (by decide)

/-! Claim C6: match of the pattern [str::>=2<=4] against s is true exactly
when s consists only of ASCII letters and has length between 2 and 4. -/

theorem mem_asciiLetters_iff (c : Char) : c ∈ asciiLetters ↔ c.isAlpha = true := by
  constructor
  · intro h
    fin_cases h <;> decide
  · intro h
    simp only [Char.isAlpha, Char.isUpper, Char.isLower, Bool.or_eq_true, Bool.and_eq_true,
      decide_eq_true_eq] at h
    have hup : asciiUppercase = (List.range 26).map (fun k => Char.ofNat (65 + k)) := by decide
    have hlo : asciiLowercase = (List.range 26).map (fun k => Char.ofNat (97 + k)) := by decide
    rcases h with ⟨h1, h2⟩ | ⟨h1, h2⟩
    · have b1 : 65 ≤ c.toNat := UInt32.le_toNat_of_le (by norm_num) h1
      have b2 : c.toNat ≤ 90 := UInt32.toNat_le_of_le (by norm_num) h2
      have hm : c ∈ asciiUppercase := by
        rw [hup]
        simp only [List.mem_map, List.mem_range]
        refine ⟨c.toNat - 65, by omega, ?_⟩
        have he : 65 + (c.toNat - 65) = c.toNat := by omega
        rw [he, Char.ofNat_toNat]
      simp only [asciiLetters, List.mem_append]
      right
      exact hm
    · have b1 : 97 ≤ c.toNat := UInt32.le_toNat_of_le (by norm_num) h1
      have b2 : c.toNat ≤ 122 := UInt32.toNat_le_of_le (by norm_num) h2
      have hm : c ∈ asciiLowercase := by
        rw [hlo]
        simp only [List.mem_map, List.mem_range]
        refine ⟨c.toNat - 97, by omega, ?_⟩
        have he : 97 + (c.toNat - 97) = c.toNat := by omega
        rw [he, Char.ofNat_toNat]
      simp only [asciiLetters, List.mem_append]
      left
      exact hm

theorem contains_asciiLetters_iff (c : Char) :
    asciiLetters.contains c = true ↔ c.isAlpha = true := by
  constructor
  · intro h
    have hm : c ∈ asciiLetters := by simpa using h
    exact (mem_asciiLetters_iff c).mp hm
  · intro h
    have hm : c ∈ asciiLetters := (mem_asciiLetters_iff c).mpr h
    simpa using hm

theorem takeWhile_length_le (p : Char → Bool) :
    ∀ l : List Char, (l.takeWhile p).length ≤ l.length := by
  intro l
  induction l with
  | nil => simp
  | cons c cs ih =>
    rw [List.takeWhile_cons]
    by_cases hp : p c = true
    · rw [if_pos hp]
      simp only [List.length_cons]
      omega
    · rw [if_neg hp]
      simp

theorem takeWhile_length_eq_iff_all (p : Char → Bool) :
    ∀ l : List Char, ((l.takeWhile p).length = l.length ↔ ∀ c ∈ l, p c = true) := by
  intro l
  induction l with
  | nil => simp
  | cons c cs ih =>
    rw [List.takeWhile_cons]
    by_cases hp : p c = true
    · rw [if_pos hp]
      simp only [List.length_cons, Nat.add_right_cancel_iff, ih]
      constructor
      · intro h c2 hc2
        rcases List.mem_cons.mp hc2 with e | hm
        · rw [e]
          exact hp
        · exact h c2 hm
      · intro h c2 hc2
        exact h c2 (List.mem_cons_of_mem _ hc2)
    · rw [if_neg hp]
      simp only [List.length_nil, List.length_cons]
      constructor
      · intro h
        omega
      · intro h
        exact absurd (h c (List.mem_cons_self _ _)) hp

theorem descRange_cons {hi lo : Nat} (h1 : 1 ≤ lo) (h2 : lo ≤ hi) :
    descRange hi lo = hi :: descRange (hi - 1) lo := by
  unfold descRange
  have hk : hi + 1 - lo = (hi - lo) + 1 := by omega
  have hk2 : hi - 1 + 1 - lo = hi - lo := by omega
  rw [hk, hk2, List.range_succ_eq_map]
  simp only [List.map_cons, Nat.sub_zero, List.map_map]
  congr 1
  apply List.map_congr_left
  intro i _
  simp only [Function.comp_apply]
  omega

theorem descRange_nil {hi lo : Nat} (h : hi < lo) : descRange hi lo = [] := by
  unfold descRange
  have hk : hi + 1 - lo = 0 := by omega
  rw [hk]
  rfl

/-- Greedy counting over the str default set with max 4: the count is the
length of the maximal letter run, capped at 4. -/
theorem greedy_letters :
    ∀ (l : List Char) (n : Nat), n < 4 →
      greedyLoop false (some asciiLetters) false (some 4) l n =
        some (min (n + (l.takeWhile (fun c => asciiLetters.contains c)).length) 4) := by
  intro l
  induction l with
  | nil =>
    intro n hn
    simp only [greedyLoop, List.takeWhile_nil, List.length_nil, Nat.add_zero,
      Option.some.injEq]
    omega
  | cons c rest ih =>
    intro n hn
    by_cases hc : asciiLetters.contains c = true
    · have hcm : charMatches false (some asciiLetters) false c = some true := by
        have hrfl : charMatches false (some asciiLetters) false c =
            some (asciiLetters.contains c) := rfl
        rw [hrfl, hc]
      simp only [greedyLoop, hcm]
      split
      · rename_i h4
        rw [List.takeWhile_cons, if_pos hc]
        simp only [List.length_cons, Option.some.injEq]
        omega
      · rename_i h4
        rw [ih (n + 1) (by omega)]
        rw [List.takeWhile_cons, if_pos hc]
        simp only [List.length_cons, Option.some.injEq]
        omega
    · have hcm : charMatches false (some asciiLetters) false c = some false := by
        have hrfl : charMatches false (some asciiLetters) false c =
            some (asciiLetters.contains c) := rfl
        have hcf : asciiLetters.contains c = false := by
          cases hcc : asciiLetters.contains c
          · rfl
          · exact absurd hcc hc
        rw [hrfl, hcf]
      simp only [greedyLoop, hcm]
      rw [List.takeWhile_cons, if_neg hc]
      simp only [List.length_nil, Nat.add_zero, Option.some.injEq]
      omega

/-- AST that the pattern [str::>=2<=4] compiles to. -/
def astC6 : List ASTNode := [.patternNode (some asciiLetters) 2 (some 4) false none]

theorem parseAst_c6_eval : parseAst "[str::>=2<=4]".toList = .ok astC6 := by
  simp [parseAst, tokenize, tokenizeLoop, splitAtChar, parsePatternContent, splitOnChar,
    parseCharType, stripList, pyIsSpace, parseRange, defaultCharSet, parseLength,
    parseLengthLoop, extractNumber, digitsToNat, scanCharSet, sortedSet, insertChar,
    rangeChars, parseLiterals, parseLiteralsLoop, Token.mkLiteral, List.dropWhile,
    List.takeWhile, Except.map, tokenToNode, LengthConstraint.get_min,
    LengthConstraint.get_max, astC6]

/-- Value of an anchored match of the [str::>=2<=4] node: with tw the
letter-run length at the start and ml = min tw 4 the greedy count, the node
succeeds with end ml when ml is at least 2 and fails otherwise. -/
theorem matchAt_c6 (s : List Char) :
    matchAt s astC6 0 =
      some (if 2 ≤ min ((s.takeWhile (fun c => asciiLetters.contains c)).length) 4 then
        (true, min ((s.takeWhile (fun c => asciiLetters.contains c)).length) 4)
      else (false, 0)) := by
  have hT : litsTruthy none = false := rfl
  simp only [astC6, matchAt, hT, Bool.false_eq_true, if_false]
  simp only [matchPatternNode]
  have hisw : (some asciiLetters).isNone = false := rfl
  have hcso : csOpt (some asciiLetters) = some asciiLetters := rfl
  rw [hisw, hcso, List.drop_zero]
  rw [greedy_letters s 0 (by omega)]
  rw [Nat.zero_add]
  dsimp only
  by_cases hml : 2 ≤ min ((s.takeWhile (fun c => asciiLetters.contains c)).length) 4
  · rw [descRange_cons (by omega) hml]
    simp only [tryList]
    rw [if_neg (by omega)]
    rw [if_neg (by simp only [decide_eq_true_eq]; push_cast; omega)]
    dsimp only [matchAt]
    rw [Nat.zero_add]
    rw [if_pos hml]
  · rw [descRange_nil (by omega)]
    simp only [tryList]
    rw [if_neg hml]
    rfl

/-- C6: match of the pattern [str::>=2<=4] against any string s is true
exactly when every character of s is an ASCII letter and the length of s is
between 2 and 4 inclusive; the pattern compiles to a single str-set node
with min 2 and max 4. -/
theorem c6_str_2_4 :
    parseAst "[str::>=2<=4]".toList = .ok astC6 ∧
      ∀ s : List Char,
        (matchTop "[str::>=2<=4]".toList s = .ok (some true) ↔
          ((∀ c ∈ s, c.isAlpha = true) ∧ 2 ≤ s.length ∧ s.length ≤ 4)) := by
  refine ⟨parseAst_c6_eval, ?_⟩
  intro s
  unfold matchTop
  rw [parseAst_c6_eval]
  dsimp only
  simp only [Except.ok.injEq]
  unfold matchFull
  rw [matchAt_c6 s]
  dsimp only
  have htwle : (s.takeWhile (fun c => asciiLetters.contains c)).length ≤ s.length :=
    takeWhile_length_le _ s
  by_cases hml : 2 ≤ min ((s.takeWhile (fun c => asciiLetters.contains c)).length) 4
  · rw [if_pos hml]
    simp only [Bool.true_and, Option.some.injEq, decide_eq_true_eq]
    constructor
    · intro hlen
      by_cases htw4 : (s.takeWhile (fun c => asciiLetters.contains c)).length ≤ 4
      · have hmltw : min ((s.takeWhile (fun c => asciiLetters.contains c)).length) 4 =
            (s.takeWhile (fun c => asciiLetters.contains c)).length := by omega
        rw [hmltw] at hlen
        have hall := (takeWhile_length_eq_iff_all _ s).mp hlen
        refine ⟨fun c hc => (contains_asciiLetters_iff c).mp (hall c hc), by omega, by omega⟩
      · omega
    · rintro ⟨hall, h2, h4⟩
      have hcnt : ∀ c ∈ s, (fun c => asciiLetters.contains c) c = true :=
        fun c hc => (contains_asciiLetters_iff c).mpr (hall c hc)
      have htws := (takeWhile_length_eq_iff_all _ s).mpr hcnt
      omega
  · rw [if_neg hml]
    simp only [Bool.false_and, Option.some.injEq]
    constructor
    · intro h
      exact absurd h (by simp)
    · rintro ⟨hall, h2, h4⟩
      exfalso
      have hcnt : ∀ c ∈ s, (fun c => asciiLetters.contains c) c = true :=
        fun c hc => (contains_asciiLetters_iff c).mpr (hall c hc)
      have htws := (takeWhile_length_eq_iff_all _ s).mpr hcnt
      omega

end Matcha
